import Mathlib

/-!
Verification of the link-tracker click ledger and analytics core.

This file shallowly embeds the in-memory storage layer (`src/lib/storage.ts`),
the redirect/enrichment handler (`src/app/t/[shortCode]/route.ts`) and the
analytics aggregation helpers (`src/app/api/links/[id]/route.ts`,
`src/lib/location.ts`) into Lean, and proves the specified properties.

Modelling conventions:
- A JavaScript `Map` is modelled as an association list in insertion order:
  `get`/`set` address the first occurrence of a key (keys are unique in every
  state a `Map` can reach, so this is faithful), `delete` removes the key,
  `set` of a fresh key appends at the end.
- JavaScript `Date` values are modelled as integer epoch milliseconds;
  calendar-day truncation (`startOfDay` + `format 'yyyy-MM-dd'`) is modelled
  as floor division by the number of milliseconds in a day.
- Numeric latitude/longitude values are only stored and copied, never computed
  with, so they are modelled as integers.
- `Math.floor(Math.random() * chars.length)` yields a value in `[0, 61]`, so a
  random draw is modelled as `Fin 62`; the stream of draws made by one call to
  `generateShortCode` is a function `Nat → Fin 62`.
- WHATWG `new URL(u).hostname` (which throws on a malformed URL) is modelled as
  an abstract parameter `p : String → Option String`.
- JavaScript truthiness on optional strings (`x || d`) treats both `undefined`
  and `""` as absent; `strFalsy` models this.
-/

/-- `Link` record from `src/types` (`createdAt : Date` as epoch milliseconds). -/
structure Link where
  id : String
  originalUrl : String
  shortCode : String
  title : Option String
  description : Option String
  createdAt : Int
  clickCount : Nat
  isActive : Bool
deriving DecidableEq

/-- `Click` record from `src/types` (`timestamp : Date` as epoch milliseconds;
coordinates as integers, see the header). -/
structure Click where
  id : String
  linkId : String
  timestamp : Int
  ip : String
  userAgent : String
  country : Option String
  countryCode : Option String
  region : Option String
  city : Option String
  latitude : Option Int
  longitude : Option Int
  referer : Option String
  isp : Option String
  org : Option String
deriving DecidableEq

/-- `LocationData` record from `src/types`: the enrichment payload. -/
structure LocationData where
  country : Option String
  countryCode : Option String
  region : Option String
  city : Option String
  lat : Option Int
  lon : Option Int
  isp : Option String
  org : Option String
deriving DecidableEq

/-- The two module-level stores of `src/lib/storage.ts`:
`linksStore : Map<shortCode, Link>` and `clicksStore : Map<linkId, Click[]>`,
modelled as insertion-ordered association lists. -/
structure Stores where
  links : List (String × Link)
  clicks : List (String × List Click)
deriving DecidableEq

/-- The initial (empty) stores. -/
def emptyStores : Stores := { links := [], clicks := [] }

/-! ### JavaScript `Map` model -/

/-- `Map.prototype.get`: value of the first (only) entry with the key. -/
def mapGet {α : Type} : List (String × α) → String → Option α
  | [], _ => none
  | p :: rest, k => if p.1 = k then some p.2 else mapGet rest k

/-- `map.get(k) || d` (for values on which `||` only tests presence). -/
def mapGetD {α : Type} (m : List (String × α)) (k : String) (d : α) : α :=
  (mapGet m k).getD d

/-- `Map.prototype.has`. -/
def mapHas {α : Type} (m : List (String × α)) (k : String) : Bool :=
  (mapGet m k).isSome

/-- `Map.prototype.set`: update the entry in place if the key is present,
otherwise append a new entry at the end. -/
def mapSet {α : Type} : List (String × α) → String → α → List (String × α)
  | [], k, v => [(k, v)]
  | p :: rest, k, v => if p.1 = k then (k, v) :: rest else p :: mapSet rest k v

/-- `Map.prototype.delete` (dropping the `Bool` result where unused). -/
def eraseKey {α : Type} (m : List (String × α)) (k : String) : List (String × α) :=
  m.filter (fun p => !(p.1 = k))

/-! ### `src/lib/storage.ts`: short-code generation -/

/-- The 62-symbol alphabet `chars` of `generateShortCode`. -/
def chars : String := "abcdefghijklmnopqrstuvwxyzABCDEFGHIJKLMNOPQRSTUVWXYZ0123456789"

/-- `chars.charAt(draw)` for a draw `Math.floor(Math.random() * chars.length)`. -/
def charAt (i : Fin 62) : Char :=
  chars.toList.get (Fin.cast (by decide) i)

/-- `generateShortCode(length)`: build a string of `len` randomly drawn
alphabet characters; `draws` is this call's random stream. -/
def generateShortCode (len : Nat) (draws : Nat → Fin 62) : String :=
  (List.range len).foldl (fun result i => result.push (charAt (draws i))) ""

/-- `generateUniqueShortCode()`: generate codes (always with the default
length 6) until one is free in `linksStore`.  The unbounded `while` loop is
embedded with an explicit list of per-attempt random streams; `none` means the
supplied attempts were exhausted. -/
def generateUniqueShortCode (links : List (String × Link)) :
    List (Nat → Fin 62) → Option String
  | [] => none
  | d :: rest =>
    let code := generateShortCode 6 d
    if mapHas links code then generateUniqueShortCode links rest
    else some code

/-! ### `src/lib/storage.ts`: LinkStorage -/

/-- JavaScript falsiness of a `string | undefined` value:
`undefined` and `""` are falsy. -/
def strFalsy : Option String → Bool
  | none => true
  | some s => s = ""

/-- Result of `LinkStorage.createLink`.  Every constructor carries the
post-state of the stores; the `throw` on a duplicate custom code happens
before any store mutation, so `duplicateCode` carries the input state.
`noFreshCode` is the embedding artifact for an exhausted draw list. -/
inductive CreateResult
  | ok (link : Link) (s : Stores)
  | duplicateCode (s : Stores)
  | noFreshCode (s : Stores)
deriving DecidableEq

/-- `LinkStorage.createLink(originalUrl, title?, description?, customCode?)`.
The caller-side generated identity `` `link_${Date.now()}_${...}` `` and the
creation time `new Date()` are passed in as `id` and `now`. -/
def createLink (s : Stores) (originalUrl : String)
    (title description customCode : Option String)
    (id : String) (now : Int) (draws : List (Nat → Fin 62)) : CreateResult :=
  -- const shortCode = customCode || generateUniqueShortCode();
  let gen : Option String :=
    if strFalsy customCode then generateUniqueShortCode s.links draws
    else some (customCode.getD "")
  match gen with
  | none => .noFreshCode s
  | some shortCode =>
    -- if (customCode && linksStore.has(customCode)) throw new Error(...)
    if !(strFalsy customCode) && mapHas s.links (customCode.getD "") then
      .duplicateCode s
    else
      let link : Link :=
        { id := id, originalUrl := originalUrl, shortCode := shortCode,
          title := title, description := description, createdAt := now,
          clickCount := 0, isActive := true }
      .ok link
        { links := mapSet s.links shortCode link,
          clicks := mapSet s.clicks id [] }

/-- `links.any(link => link.id === id)`: is some registered link's identity
`id`?  (Used to state freshness/liveness hypotheses.) -/
def hasLinkId (links : List (String × Link)) (id : String) : Bool :=
  links.any (fun p => p.2.id = id)

/-- `LinkStorage.updateLinkClickCount(linkId)`: scan `linksStore` in insertion
order and increment the first link whose `id` matches, then `break`. -/
def updateLinkClickCount : List (String × Link) → String → List (String × Link)
  | [], _ => []
  | (sc, l) :: rest, linkId =>
    if l.id = linkId then (sc, { l with clickCount := l.clickCount + 1 }) :: rest
    else (sc, l) :: updateLinkClickCount rest linkId

/-- `LinkStorage.deleteLink(id)`: find the entry whose link has identity `id`;
delete it from `linksStore` by its short code and delete the click history
from `clicksStore` by `id`; `false` if not found. -/
def deleteLink (s : Stores) (id : String) : Bool × Stores :=
  match s.links.find? (fun p => p.2.id = id) with
  | some p =>
    (true, { links := eraseKey s.links p.1, clicks := eraseKey s.clicks id })
  | none => (false, s)

/-- Body of `LinkStorage.toggleLinkStatus`: flip `isActive` on the first entry
whose link has identity `id`; `none` if no entry matches. -/
def toggleFirst : List (String × Link) → String → Option (List (String × Link))
  | [], _ => none
  | (sc, l) :: rest, id =>
    if l.id = id then some ((sc, { l with isActive := !l.isActive }) :: rest)
    else (toggleFirst rest id).map (fun r => (sc, l) :: r)

/-- `LinkStorage.toggleLinkStatus(id)`: returns the `Bool` result and the
post-state. -/
def toggleLinkStatus (s : Stores) (id : String) : Bool × Stores :=
  match toggleFirst s.links id with
  | some links => (true, { s with links := links })
  | none => (false, s)

/-! ### `src/lib/storage.ts`: ClickStorage -/

/-- `ClickStorage.addClick(click)`: push the click onto
`clicksStore.get(click.linkId) || []`, store the array back, then call
`LinkStorage.updateLinkClickCount(click.linkId)`. -/
def addClick (s : Stores) (c : Click) : Stores :=
  let linkClicks := mapGetD s.clicks c.linkId []
  { links := updateLinkClickCount s.links c.linkId,
    clicks := mapSet s.clicks c.linkId (linkClicks ++ [c]) }

/-- `ClickStorage.getClicksForLink(linkId)`: `clicksStore.get(linkId) || []`. -/
def getClicksForLink (s : Stores) (linkId : String) : List Click :=
  mapGetD s.clicks linkId []

/-! ### `src/app/t/[shortCode]/route.ts`: the asynchronous enrichment patch -/

/-- The field-by-field copy performed inside the `.then` callback of
`getLocationFromIP(ip)`: the eight enrichment fields are overwritten from the
resolved location; no other field of the click is touched. -/
def applyEnrichment (loc : LocationData) (c : Click) : Click :=
  { c with country := loc.country, countryCode := loc.countryCode,
           region := loc.region, city := loc.city,
           latitude := loc.lat, longitude := loc.lon,
           isp := loc.isp, org := loc.org }

/-- `linkClicks.find(c => c.id === clickId)` followed by the in-place update:
patch the first click with the given identity, leave the rest unchanged. -/
def patchFirst (clickId : String) (loc : LocationData) : List Click → List Click
  | [] => []
  | c :: rest =>
    if c.id = clickId then applyEnrichment loc c :: rest
    else c :: patchFirst clickId loc rest

/-- The complete enrichment-patch step of the redirect handler: look up the
link's click history (`getClicksForLink`), find the click by id and patch it
in place.  When the ledger entry is gone (the link was deleted),
`getClicksForLink` returns a fresh empty array, `find` yields `undefined` and
nothing is written back: the stores are untouched. -/
def patchEnrichment (s : Stores) (linkId clickId : String)
    (loc : LocationData) : Stores :=
  match mapGet s.clicks linkId with
  | none => s
  | some linkClicks =>
    { s with clicks := mapSet s.clicks linkId (patchFirst clickId loc linkClicks) }

/-! ### `src/app/api/links/[id]/route.ts`: analytics helpers -/

/-- Milliseconds per calendar day. -/
def msPerDay : Int := 86400000

/-- `format(startOfDay(new Date(ts)), 'yyyy-MM-dd')`: truncation of a
timestamp to its calendar day, modelled as the day index (floor division). -/
def dayTrunc (ts : Int) : Int := Int.fdiv ts msPerDay

/-- The pre-seeded window of `generateClicksByDate`:
`Array.from({length: 30}, (_, i) => ({date: today - i, clicks: 0})).reverse()`,
with dates as day indices and `today` the day index of `new Date()`. -/
def last30Days (today : Int) : List (Int × Nat) :=
  ((List.range 30).map (fun (i : Nat) => ((today - (i : Int)), (0 : Nat)))).reverse

/-- `last30Days.find(day => day.date === clickDate)` followed by
`dayData.clicks++`: increment the first entry with the given date, if any. -/
def incFirst (d : Int) : List (Int × Nat) → List (Int × Nat)
  | [] => []
  | p :: rest => if p.1 = d then (p.1, p.2 + 1) :: rest else p :: incFirst d rest

/-- `generateClicksByDate(clicks)`: seed the trailing 30-day window ending
today with zero counts, then bump the matching day entry for each click. -/
def generateClicksByDate (today : Int) (clicks : List Click) : List (Int × Nat) :=
  clicks.foldl (fun acc c => incFirst (dayTrunc c.timestamp) acc) (last30Days today)

/-- One step of building a counting `Map`: `m.set(k, (m.get(k) || 0) + 1)`. -/
def bump (acc : List (String × Nat)) (k : String) : List (String × Nat) :=
  mapSet acc k (mapGetD acc k 0 + 1)

/-- The sort comparator `(a, b) => b.count - a.count`: `a` may precede `b`
exactly when `b.count ≤ a.count` (count descending, stable on ties). -/
def countLe (a b : String × Nat) : Bool := decide (b.2 ≤ a.2)

/-- `extractDomain(url)`: `new URL(url).hostname`, or the input string itself
when URL parsing throws.  `p` is the abstract URL-host parser. -/
def extractDomain (p : String → Option String) (url : String) : String :=
  match p url with
  | some host => host
  | none => url

/-- The label computed per click inside `generateTopReferers`:
`const referer = click.referer || 'Direct';`
`const domain = referer === 'Direct' ? 'Direct' : extractDomain(referer);`. -/
def refererLabel (p : String → Option String) (c : Click) : String :=
  let referer := match c.referer with
    | none => "Direct"
    | some r => if r = "" then "Direct" else r
  if referer = "Direct" then "Direct" else extractDomain p referer

/-- `generateTopReferers(clicks)`: tally referer labels into a `Map`, list its
entries, sort by count descending (JavaScript sort is stable) and
`slice(0, 10)`. -/
def generateTopReferers (p : String → Option String) (clicks : List Click) :
    List (String × Nat) :=
  ((clicks.foldl (fun acc c => bump acc (refererLabel p c)) []).mergeSort countLe).take 10

/-! ### `src/lib/location.ts`: grouping by country -/

/-- The group key of `groupClicksByCountry`: `click.country || 'Unknown'`
(JavaScript falsiness: both absent and empty map to `"Unknown"`). -/
def countryLabel (c : Click) : String :=
  match c.country with
  | none => "Unknown"
  | some s => if s = "" then "Unknown" else s

/-- `groupClicksByCountry(clicks)`: tally country labels into a `Map`, list
its entries and sort by count descending (stable). -/
def groupClicksByCountry (clicks : List Click) : List (String × Nat) :=
  (clicks.foldl (fun acc c => bump acc (countryLabel c)) []).mergeSort countLe

/-! ### Specification-side definitions (for the refinement statements) -/

/-- Specification-side: the distinct keys of a list in first-encountered
insertion order. -/
def keysInOrder (keys : List String) : List String :=
  keys.foldl (fun acc k => if k ∈ acc then acc else acc ++ [k]) []

/-- Specification-side: one `(key, multiplicity)` pair per distinct key, in
first-encountered insertion order. -/
def specTally (keys : List String) : List (String × Nat) :=
  (keysInOrder keys).map (fun k => (k, keys.count k))

/-- Modelled from the spec (C8's wording): the group key the claim ascribes to
`groupClicksByCountry` — the literal `"Unknown"` only for an *absent*
country. -/
def claimedCountryLabel (c : Click) : String := c.country.getD "Unknown"

/-- Modelled from the spec (C8's wording): grouping by `claimedCountryLabel`
in first-encounter order, sorted stably by count descending. -/
def claimedGroupByCountry (clicks : List Click) : List (String × Nat) :=
  (specTally (clicks.map claimedCountryLabel)).mergeSort countLe

/-- Modelled from the spec (C9's wording): the label the claim ascribes to
`generateTopReferers` — `"Direct"` only for an *absent* referer, otherwise
the URL host, or the literal referer string when parsing fails. -/
def claimedRefererLabel (p : String → Option String) (c : Click) : String :=
  match c.referer with
  | none => "Direct"
  | some r => extractDomain p r

/-- Modelled from the spec (C9's wording): tally of claimed referer labels,
sorted stably by count descending, truncated to 10. -/
def claimedTopReferers (p : String → Option String) (clicks : List Click) :
    List (String × Nat) :=
  ((specTally (clicks.map (claimedRefererLabel p))).mergeSort countLe).take 10

/-- A URL-host parser that rejects every input (in particular it rejects the
strings `""` and `"Direct"`, as `new URL` does). -/
def noHost : String → Option String := fun _ => none

/-- The claim-side day window of `generateClicksByDate`: the day-truncated
timestamp lies in the trailing 30-day window ending `today`. -/
def inWindow (today ts : Int) : Prop :=
  today - 29 ≤ dayTrunc ts ∧ dayTrunc ts ≤ today

instance (today ts : Int) : Decidable (inWindow today ts) := by
  unfold inWindow; infer_instance

/-! ### Reachable states and the ledger/counter invariant -/

/-- The registered links carry pairwise distinct identities.  Identities are
produced by `` `link_${Date.now()}_${Math.random().toString(36).substr(2, 9)}` ``
and the data model declares them globally unique. -/
def IdsNodup (links : List (String × Link)) : Prop :=
  (links.map (fun p => p.2.id)).Nodup

/-- Every registered link's click count equals the length of its ledger. -/
def CountInv (s : Stores) : Prop :=
  ∀ p ∈ s.links, ∃ l, mapGet s.clicks p.2.id = some l ∧ l.length = p.2.clickCount

/-- States reachable from the empty stores by the storage operations.  The
`create` step carries the freshness of the generated link identity (see
`IdsNodup`); the `click` step targets a registered link, as the redirect
handler only appends clicks for links it has just resolved. -/
inductive Reachable : Stores → Prop
  | empty : Reachable emptyStores
  | create {s : Stores} {url : String} {title description customCode : Option String}
      {id : String} {now : Int} {draws : List (Nat → Fin 62)}
      {link : Link} {sB : Stores} :
      Reachable s → hasLinkId s.links id = false →
      createLink s url title description customCode id now draws = CreateResult.ok link sB →
      Reachable sB
  | click {s : Stores} {c : Click} :
      Reachable s → hasLinkId s.links c.linkId = true → Reachable (addClick s c)
  | toggle {s : Stores} {id : String} :
      Reachable s → Reachable (toggleLinkStatus s id).2
  | patch {s : Stores} {linkId clickId : String} {loc : LocationData} :
      Reachable s → Reachable (patchEnrichment s linkId clickId loc)
  | del {s : Stores} {id : String} :
      Reachable s → Reachable (deleteLink s id).2

/-! ### Concrete fixtures for witnesses and counterexamples -/

/-- A random stream that always draws index 0 (`'a'`). -/
def drawA : Nat → Fin 62 := fun _ => 0

/-- The link produced by `createLink` on the empty stores with `drawA`. -/
def witLink : Link :=
  { id := "L1", originalUrl := "https://example.com", shortCode := "aaaaaa",
    title := none, description := none, createdAt := 0,
    clickCount := 0, isActive := true }

/-- The stores after registering `witLink`. -/
def witStores1 : Stores :=
  { links := [("aaaaaa", witLink)], clicks := [("L1", [])] }

/-- A bare (unenriched) click on `witLink`. -/
def witClick : Click :=
  { id := "c1", linkId := "L1", timestamp := 0, ip := "203.0.113.1",
    userAgent := "UA", country := none, countryCode := none, region := none,
    city := none, latitude := none, longitude := none, referer := none,
    isp := none, org := none }

/-- The stores after `witClick` was appended. -/
def witStores2 : Stores := addClick witStores1 witClick

/-- A second bare click on `witLink`, with a fresh identity. -/
def witClick2 : Click := { witClick with id := "c2", ip := "198.51.100.7" }

/-- A concrete enrichment payload. -/
def witLoc : LocationData :=
  { country := some "Canada", countryCode := some "CA", region := some "Ontario",
    city := some "Toronto", lat := some 43, lon := some (-79),
    isp := some "ISP", org := some "Org" }

/-- A click whose `linkId` resolves to no registered link. -/
def ghostClick : Click := { witClick with id := "cg", linkId := "ghost" }

/-- A click whose recorded country is the empty string. -/
def emptyCountryClick : Click := { witClick with country := some "" }

/-- A click whose recorded referer is the empty string. -/
def emptyRefererClick : Click := { witClick with referer := some "" }

/-! ## Association-list (`Map`) lemmas -/

theorem mapGet_set_self {α : Type} (m : List (String × α)) (k : String) (v : α) :
    mapGet (mapSet m k v) k = some v := by
  induction m with
  | nil => simp [mapSet, mapGet]
  | cons p rest ih =>
    by_cases h : p.1 = k
    · simp [mapSet, mapGet, h]
    · simp [mapSet, mapGet, h, ih]

theorem mapGet_set_ne {α : Type} (m : List (String × α)) {k kB : String} (v : α)
    (h : kB ≠ k) : mapGet (mapSet m k v) kB = mapGet m kB := by
  have hk : ¬(k = kB) := fun hh => h hh.symm
  induction m with
  | nil => simp [mapSet, mapGet, hk]
  | cons p rest ih =>
    by_cases hp : p.1 = k
    · simp [mapSet, mapGet, hp, hk]
    · simp [mapSet, mapGet, hp, ih]

theorem mapGet_erase_self {α : Type} (m : List (String × α)) (k : String) :
    mapGet (eraseKey m k) k = none := by
  induction m with
  | nil => simp [eraseKey, mapGet]
  | cons p rest ih =>
    by_cases h : p.1 = k
    · simpa [eraseKey, h] using ih
    · simpa [eraseKey, mapGet, h] using ih

theorem mapGet_erase_ne {α : Type} (m : List (String × α)) {k kB : String}
    (h : kB ≠ k) : mapGet (eraseKey m k) kB = mapGet m kB := by
  have hk : ¬(k = kB) := fun hh => h hh.symm
  induction m with
  | nil => simp [eraseKey, mapGet]
  | cons p rest ih =>
    by_cases hp : p.1 = k
    · simpa [eraseKey, mapGet, hp, hk] using ih
    · simp only [eraseKey, List.filter_cons] at ih ⊢
      simp [mapGet, hp, ih]

theorem mapSet_of_not_has {α : Type} (m : List (String × α)) {k : String} (v : α)
    (h : mapHas m k = false) : mapSet m k v = m ++ [(k, v)] := by
  induction m with
  | nil => simp [mapSet]
  | cons p rest ih =>
    by_cases hp : p.1 = k
    · simp [mapHas, mapGet, hp] at h
    · simp only [mapHas, mapGet, hp, if_false] at h
      simp [mapSet, hp, ih h]

theorem mapHas_eq_false_iff {α : Type} (m : List (String × α)) (k : String) :
    mapHas m k = false ↔ mapGet m k = none := by
  cases h : mapGet m k <;> simp [mapHas, h]

/-! ## Lemmas about `updateLinkClickCount` -/

theorem updateLinkClickCount_of_no_id {links : List (String × Link)} {id : String}
    (h : hasLinkId links id = false) : updateLinkClickCount links id = links := by
  induction links with
  | nil => rfl
  | cons p rest ih =>
    simp only [hasLinkId, List.any_cons, Bool.or_eq_false_iff] at h
    obtain ⟨h1, h2⟩ := h
    cases p with
    | mk sc l =>
      simp only [decide_eq_false_iff_not] at h1
      simp [updateLinkClickCount, h1, ih h2]

theorem updateLinkClickCount_map_id (links : List (String × Link)) (id : String) :
    (updateLinkClickCount links id).map (fun p => p.2.id) =
      links.map (fun p => p.2.id) := by
  induction links with
  | nil => rfl
  | cons p rest ih =>
    cases p with
    | mk sc l =>
      by_cases h : l.id = id
      · simp [updateLinkClickCount, h]
      · simp [updateLinkClickCount, h, ih]

/-! ## Lemmas about `patchFirst` and `patchEnrichment` -/

theorem patchEnrichment_of_no_ledger {s : Stores} {linkId clickId : String}
    {loc : LocationData} (h : mapGet s.clicks linkId = none) :
    patchEnrichment s linkId clickId loc = s := by
  unfold patchEnrichment
  rw [h]

theorem patchFirst_append_of_fresh {cid : String} {loc : LocationData}
    {l m : List Click} (h : ∀ x ∈ l, x.id ≠ cid) :
    patchFirst cid loc (l ++ m) = l ++ patchFirst cid loc m := by
  induction l with
  | nil => simp
  | cons x rest ih =>
    have hx : ¬(x.id = cid) := h x (List.mem_cons_self x rest)
    simp only [List.cons_append, patchFirst, hx, if_false, List.append_eq]
    rw [ih (fun y hy => h y (List.mem_cons_of_mem x hy))]

/-! ## Lemmas about `toggleFirst` -/

theorem toggleFirst_eq_none {links : List (String × Link)} {id : String}
    (h : hasLinkId links id = false) : toggleFirst links id = none := by
  induction links with
  | nil => rfl
  | cons p rest ih =>
    simp only [hasLinkId, List.any_cons, Bool.or_eq_false_iff] at h
    obtain ⟨h1, h2⟩ := h
    cases p with
    | mk sc l =>
      simp only [decide_eq_false_iff_not] at h1
      simp [toggleFirst, h1, ih h2]

theorem toggleFirst_isSome {links : List (String × Link)} {id : String}
    (h : hasLinkId links id = true) : (toggleFirst links id).isSome := by
  induction links with
  | nil => simp [hasLinkId] at h
  | cons p rest ih =>
    cases p with
    | mk sc l =>
      by_cases hl : l.id = id
      · simp [toggleFirst, hl]
      · simp only [hasLinkId, List.any_cons, Bool.or_eq_true] at h
        rcases h with h | h
        · simp [hl] at h
        · simpa [toggleFirst, hl] using ih h

theorem toggleFirst_involutive {links r : List (String × Link)} {id : String}
    (h : toggleFirst links id = some r) : toggleFirst r id = some links := by
  induction links generalizing r with
  | nil => simp [toggleFirst] at h
  | cons p rest ih =>
    cases p with
    | mk sc l =>
      by_cases hl : l.id = id
      · simp only [toggleFirst] at h
        rw [if_pos hl] at h
        obtain rfl := Option.some_inj.mp h
        have hl2 : ({ l with isActive := !l.isActive } : Link).id = id := hl
        simp only [toggleFirst]
        rw [if_pos hl2]
        simp [Bool.not_not]
      · simp only [toggleFirst, hl, if_false, Option.map_eq_some'] at h
        obtain ⟨r0, hr0, rfl⟩ := h
        simp [toggleFirst, hl, ih hr0]

theorem toggleFirst_decomp {links r : List (String × Link)} {id : String}
    (h : toggleFirst links id = some r) :
    ∃ pre sc l post, links = pre ++ (sc, l) :: post ∧ l.id = id ∧
      (∀ q ∈ pre, q.2.id ≠ id) ∧
      r = pre ++ (sc, { l with isActive := !l.isActive }) :: post := by
  induction links generalizing r with
  | nil => simp [toggleFirst] at h
  | cons p rest ih =>
    cases p with
    | mk sc l =>
      by_cases hl : l.id = id
      · simp only [toggleFirst] at h
        rw [if_pos hl] at h
        obtain rfl := Option.some_inj.mp h
        exact ⟨[], sc, l, rest, by simp, hl, by simp, by simp⟩
      · simp only [toggleFirst, hl, if_false, Option.map_eq_some'] at h
        obtain ⟨r0, hr0, rfl⟩ := h
        obtain ⟨pre, scB, lB, post, he, hid, hpre, hr⟩ := ih hr0
        refine ⟨(sc, l) :: pre, scB, lB, post, by simp [he], hid, ?_, by simp [hr]⟩
        intro q hq
        rcases List.mem_cons.mp hq with rfl | hq
        · exact hl
        · exact hpre q hq

/-! ## Lemmas about short-code generation -/

theorem toList_push (s : String) (c : Char) : (s.push c).toList = s.toList ++ [c] := by
  cases s
  rfl

theorem length_push (s : String) (c : Char) : (s.push c).length = s.length + 1 := by
  cases s
  simp [String.push, String.length]

theorem charAt_mem (i : Fin 62) : charAt i ∈ chars.toList := by
  unfold charAt
  exact List.get_mem _ _ _

theorem foldl_push_length (l : List Nat) (d : Nat → Fin 62) (r : String) :
    (l.foldl (fun result i => result.push (charAt (d i))) r).length
      = r.length + l.length := by
  induction l generalizing r with
  | nil => simp
  | cons x xs ih =>
    rw [List.foldl_cons, ih, length_push, List.length_cons]
    omega

theorem foldl_push_mem (l : List Nat) (d : Nat → Fin 62) (r : String) (ch : Char)
    (h : ch ∈ (l.foldl (fun result i => result.push (charAt (d i))) r).toList) :
    ch ∈ r.toList ∨ ch ∈ chars.toList := by
  induction l generalizing r with
  | nil => exact Or.inl h
  | cons x xs ih =>
    rw [List.foldl_cons] at h
    rcases ih (r.push (charAt (d x))) h with hr | hc
    · rw [toList_push, List.mem_append] at hr
      rcases hr with hr | hr
      · exact Or.inl hr
      · right
        rw [List.mem_singleton] at hr
        rw [hr]
        exact charAt_mem (d x)
    · exact Or.inr hc

theorem length_generateShortCode (len : Nat) (d : Nat → Fin 62) :
    (generateShortCode len d).length = len := by
  unfold generateShortCode
  rw [foldl_push_length]
  simp

theorem mem_generateShortCode (len : Nat) (d : Nat → Fin 62) (ch : Char)
    (h : ch ∈ (generateShortCode len d).toList) : ch ∈ chars.toList := by
  unfold generateShortCode at h
  rcases foldl_push_mem _ d "" ch h with hr | hc
  · simp at hr
  · exact hc

theorem generateUniqueShortCode_some {links : List (String × Link)}
    {draws : List (Nat → Fin 62)} {code : String}
    (h : generateUniqueShortCode links draws = some code) :
    mapHas links code = false ∧ ∃ d, code = generateShortCode 6 d := by
  induction draws with
  | nil => simp [generateUniqueShortCode] at h
  | cons d rest ih =>
    simp only [generateUniqueShortCode] at h
    by_cases hh : mapHas links (generateShortCode 6 d)
    · rw [if_pos hh] at h
      exact ih h
    · rw [if_neg hh] at h
      obtain rfl := Option.some_inj.mp h
      exact ⟨by simpa using hh, d, rfl⟩

theorem createLink_none_ok {s : Stores} {url : String}
    {title description : Option String} {id : String} {now : Int}
    {draws : List (Nat → Fin 62)} {link : Link} {sB : Stores}
    (h : createLink s url title description none id now draws = CreateResult.ok link sB) :
    generateUniqueShortCode s.links draws = some link.shortCode := by
  simp only [createLink, strFalsy, if_true] at h
  rcases hg : generateUniqueShortCode s.links draws with _ | code
  · rw [hg] at h
    cases h
  · rw [hg] at h
    simp only [Bool.not_true, Bool.false_and, Bool.false_eq_true, if_false,
      CreateResult.ok.injEq] at h
    rw [← h.1]

/-! ## Claim C7 -/

/-- Claim C7: whenever `createLink` without a custom code succeeds (the
embedded retry loop found a free code among the supplied draws), the returned
link's short code has exactly 6 characters, each drawn from the 62-symbol
alphabet, and differs from the short code of every previously registered
link. -/
theorem createLink_generated_code (s : Stores) (url : String)
    (title description : Option String) (id : String) (now : Int)
    (draws : List (Nat → Fin 62)) (link : Link) (sB : Stores)
    (h : createLink s url title description none id now draws = CreateResult.ok link sB) :
    link.shortCode.length = 6
    ∧ (∀ ch ∈ link.shortCode.toList, ch ∈ chars.toList)
    ∧ mapHas s.links link.shortCode = false := by
  obtain ⟨hfree, d, hcode⟩ := generateUniqueShortCode_some (createLink_none_ok h)
  refine ⟨?_, ?_, hfree⟩
  · rw [hcode]
    exact length_generateShortCode 6 d
  · intro ch hch
    rw [hcode] at hch
    exact mem_generateShortCode 6 d ch hch

/-- Witness for `createLink_generated_code`: registering a link on the empty
stores with the constant draw stream yields the code `"aaaaaa"`. -/
theorem createLink_generated_code_witness :
    witLink.shortCode.length = 6
    ∧ (∀ ch ∈ witLink.shortCode.toList, ch ∈ chars.toList)
    ∧ mapHas emptyStores.links witLink.shortCode = false :=
  createLink_generated_code emptyStores "https://example.com" none none "L1" 0
    [drawA] witLink witStores1 (by decide)

/-! ## Lemmas about `incFirst` and `last30Days` -/

theorem incFirst_map_fst (d : Int) (l : List (Int × Nat)) :
    (incFirst d l).map Prod.fst = l.map Prod.fst := by
  induction l with
  | nil => rfl
  | cons p rest ih =>
    by_cases hp : p.1 = d
    · simp [incFirst, hp]
    · simp [incFirst, hp, ih]

theorem sum_incFirst_mem (d : Int) (l : List (Int × Nat))
    (h : d ∈ l.map Prod.fst) :
    ((incFirst d l).map Prod.snd).sum = (l.map Prod.snd).sum + 1 := by
  induction l with
  | nil => simp at h
  | cons p rest ih =>
    by_cases hp : p.1 = d
    · simp only [incFirst, hp, if_true, List.map_cons, List.sum_cons]
      omega
    · have h2 : d ∈ rest.map Prod.fst := by
        rcases List.mem_cons.mp h with h | h
        · exact absurd h.symm hp
        · exact h
      simp only [incFirst, hp, if_false, List.map_cons, List.sum_cons]
      rw [ih h2]
      omega

theorem sum_incFirst_not_mem (d : Int) (l : List (Int × Nat))
    (h : d ∉ l.map Prod.fst) : incFirst d l = l := by
  induction l with
  | nil => rfl
  | cons p rest ih =>
    by_cases hp : p.1 = d
    · exact absurd (by simp [hp]) h
    · have h2 : d ∉ rest.map Prod.fst := fun hc => h (by simp [hc])
      simp [incFirst, hp, ih h2]

theorem last30Days_map_fst (today : Int) :
    (last30Days today).map Prod.fst
      = (List.range 30).map (fun (i : Nat) => today - 29 + (i : Int)) := by
  unfold last30Days
  rw [List.map_reverse, List.map_map]
  apply List.ext_getElem
  · simp
  · intro i h1 h2
    have hi : i < 30 := by simpa using h2
    simp only [List.getElem_reverse, List.length_map, List.length_range,
      List.getElem_map, List.getElem_range, Function.comp_apply]
    omega

theorem last30Days_snd (today : Int) : ∀ p ∈ last30Days today, p.2 = 0 := by
  intro p hp
  simp only [last30Days, List.mem_reverse, List.mem_map, List.mem_range] at hp
  obtain ⟨i, _, rfl⟩ := hp
  rfl

theorem mem_last30Days_fst (today d : Int) :
    d ∈ (last30Days today).map Prod.fst ↔ (today - 29 ≤ d ∧ d ≤ today) := by
  rw [last30Days_map_fst]
  simp only [List.mem_map, List.mem_range]
  constructor
  · rintro ⟨i, hi, rfl⟩
    omega
  · rintro ⟨h1, h2⟩
    exact ⟨(d - (today - 29)).toNat, by omega, by omega⟩

theorem foldl_incFirst_map_fst (clicks : List Click) (acc : List (Int × Nat)) :
    ((clicks.foldl (fun a c => incFirst (dayTrunc c.timestamp) a) acc).map Prod.fst)
      = acc.map Prod.fst := by
  induction clicks generalizing acc with
  | nil => rfl
  | cons c cs ih =>
    rw [List.foldl_cons, ih, incFirst_map_fst]

theorem sum_foldl_incFirst (today : Int) (clicks : List Click) :
    ∀ acc : List (Int × Nat),
      (∀ d, d ∈ acc.map Prod.fst ↔ (today - 29 ≤ d ∧ d ≤ today)) →
      ((clicks.foldl (fun a c => incFirst (dayTrunc c.timestamp) a) acc).map Prod.snd).sum
        = (acc.map Prod.snd).sum
          + clicks.countP (fun c => decide (inWindow today c.timestamp)) := by
  induction clicks with
  | nil =>
    intro acc hacc
    simp
  | cons c cs ih =>
    intro acc hacc
    rw [List.foldl_cons, List.countP_cons]
    by_cases hmem : dayTrunc c.timestamp ∈ acc.map Prod.fst
    · have hacc2 : ∀ d, d ∈ (incFirst (dayTrunc c.timestamp) acc).map Prod.fst ↔
          (today - 29 ≤ d ∧ d ≤ today) := by
        intro d
        rw [incFirst_map_fst]
        exact hacc d
      rw [ih (incFirst (dayTrunc c.timestamp) acc) hacc2,
        sum_incFirst_mem _ _ hmem]
      have hwin : decide (inWindow today c.timestamp) = true := by
        have hw := (hacc (dayTrunc c.timestamp)).mp hmem
        simpa [inWindow] using hw
      simp only [hwin, if_pos]
      omega
    · rw [sum_incFirst_not_mem _ _ hmem, ih acc hacc]
      have hwin : decide (inWindow today c.timestamp) = false := by
        by_contra hc
        rw [Bool.not_eq_false, decide_eq_true_iff] at hc
        exact hmem ((hacc (dayTrunc c.timestamp)).mpr hc)
      simp only [hwin]
      simp

/-! ## Claim C4 -/

/-- Claim C4: `generateClicksByDate` returns exactly 30 entries, whose dates
are precisely the calendar days of the trailing 30-day window ending today in
oldest-first order, each seeded with 0 before counting; and the counts sum to
the number of clicks whose day-truncated timestamp lies in the window (clicks
outside the window contribute to no entry). -/
theorem clicksByDate_spec (today : Int) (clicks : List Click) :
    (generateClicksByDate today clicks).length = 30
    ∧ (generateClicksByDate today clicks).map Prod.fst
        = (List.range 30).map (fun (i : Nat) => today - 29 + (i : Int))
    ∧ (∀ p ∈ last30Days today, p.2 = 0)
    ∧ ((generateClicksByDate today clicks).map Prod.snd).sum
        = clicks.countP (fun c => decide (inWindow today c.timestamp)) := by
  have hfst : (generateClicksByDate today clicks).map Prod.fst
      = (last30Days today).map Prod.fst := foldl_incFirst_map_fst clicks _
  refine ⟨?_, hfst.trans (last30Days_map_fst today), last30Days_snd today, ?_⟩
  · have h1 := congrArg List.length (hfst.trans (last30Days_map_fst today))
    simpa using h1
  · have hz : ((last30Days today).map Prod.snd).sum = 0 := by
      apply List.sum_eq_zero
      intro x hx
      rcases List.mem_map.mp hx with ⟨p, hp, rfl⟩
      exact last30Days_snd today p hp
    have := sum_foldl_incFirst today clicks (last30Days today)
      (fun d => mem_last30Days_fst today d)
    rw [generateClicksByDate, this, hz]
    omega

/-! ## Claim C1 -/

/-- Claim C1 as stated is false on the code: `ClickStorage.addClick` has no
failure path.  At the concrete input below, the empty stores have no live
link with identity `"ghost"`, yet appending `ghostClick` stores the click in
a ledger keyed by `"ghost"` (the append is not discarded), while indeed no
click count changes. -/
theorem addClick_unknown_stored_cex :
    hasLinkId emptyStores.links ghostClick.linkId = false
    ∧ getClicksForLink (addClick emptyStores ghostClick) ghostClick.linkId = [ghostClick]
    ∧ (addClick emptyStores ghostClick).links = emptyStores.links := by
  exact ⟨by decide, by decide, by decide⟩

/-- Claim C1, amended: when `linkId` does not resolve to a live link,
`addClick` does not fail — the click is still appended to the ledger stored
under that `linkId` (creating one if absent); no link's `clickCount` is
incremented (the link registry is unchanged) and no other ledger changes. -/
theorem addClick_unknown_amended (s : Stores) (c : Click)
    (h : hasLinkId s.links c.linkId = false) :
    (addClick s c).links = s.links
    ∧ getClicksForLink (addClick s c) c.linkId = getClicksForLink s c.linkId ++ [c]
    ∧ ∀ k, k ≠ c.linkId → getClicksForLink (addClick s c) k = getClicksForLink s k := by
  refine ⟨?_, ?_, ?_⟩
  · simp [addClick, updateLinkClickCount_of_no_id h]
  · simp [addClick, getClicksForLink, mapGetD, mapGet_set_self]
  · intro k hk
    simp [addClick, getClicksForLink, mapGetD, mapGet_set_ne _ _ hk]

/-- Witness for `addClick_unknown_amended`, at the one-link store and the
unknown-target click. -/
theorem addClick_unknown_amended_witness :
    (addClick witStores1 ghostClick).links = witStores1.links
    ∧ getClicksForLink (addClick witStores1 ghostClick) ghostClick.linkId
        = getClicksForLink witStores1 ghostClick.linkId ++ [ghostClick]
    ∧ ∀ k, k ≠ ghostClick.linkId →
        getClicksForLink (addClick witStores1 ghostClick) k = getClicksForLink witStores1 k :=
  addClick_unknown_amended witStores1 ghostClick (by decide)

/-! ## Claim C3 -/

/-- Claim C3: after a successful `deleteLink`, delivering a pending enrichment
patch addressed to the deleted link (for any former click identity and any
payload) leaves the stores exactly as the deletion left them: the patch is
silently dropped and neither the link nor any click-history entry is
recreated. -/
theorem delete_then_patch_noop (s : Stores) (id clickId : String)
    (loc : LocationData) (h : (deleteLink s id).1 = true) :
    patchEnrichment (deleteLink s id).2 id clickId loc = (deleteLink s id).2 := by
  rcases hf : s.links.find? (fun p => p.2.id = id) with _ | p
  · simp [deleteLink, hf] at h
  · have h2 : (deleteLink s id).2 =
        { links := eraseKey s.links p.1, clicks := eraseKey s.clicks id } := by
      simp [deleteLink, hf]
    rw [h2]
    exact patchEnrichment_of_no_ledger (mapGet_erase_self _ _)

/-- Witness for `delete_then_patch_noop`: delete the one link of `witStores2`
(which has a recorded click), then deliver the enrichment patch for that
click. -/
theorem delete_then_patch_noop_witness :
    patchEnrichment (deleteLink witStores2 "L1").2 "L1" "c1" witLoc
      = (deleteLink witStores2 "L1").2 :=
  delete_then_patch_noop witStores2 "L1" "c1" witLoc (by decide)

/-! ## Claim C5 -/

/-- Claim C5: after `addClick` stores a (fresh-identity) click and a
successful enrichment patch is applied to it, a subsequent `getClicksForLink`
returns that click with the enrichment fields set to the resolved location;
the patch changes none of the click's immutable fields (`id`, `linkId`,
`timestamp`, `ip`, `userAgent`, `referer`) and touches no other click (neither
the earlier clicks of the same ledger nor any other ledger). -/
theorem append_patch_visible (s : Stores) (c : Click) (loc : LocationData)
    (hfresh : ∀ cB ∈ getClicksForLink s c.linkId, cB.id ≠ c.id) :
    getClicksForLink (patchEnrichment (addClick s c) c.linkId c.id loc) c.linkId
      = getClicksForLink s c.linkId ++ [applyEnrichment loc c]
    ∧ (∀ k, k ≠ c.linkId →
        getClicksForLink (patchEnrichment (addClick s c) c.linkId c.id loc) k
          = getClicksForLink s k)
    ∧ (applyEnrichment loc c).id = c.id
    ∧ (applyEnrichment loc c).linkId = c.linkId
    ∧ (applyEnrichment loc c).timestamp = c.timestamp
    ∧ (applyEnrichment loc c).ip = c.ip
    ∧ (applyEnrichment loc c).userAgent = c.userAgent
    ∧ (applyEnrichment loc c).referer = c.referer
    ∧ (applyEnrichment loc c).country = loc.country
    ∧ (applyEnrichment loc c).countryCode = loc.countryCode
    ∧ (applyEnrichment loc c).region = loc.region
    ∧ (applyEnrichment loc c).city = loc.city
    ∧ (applyEnrichment loc c).latitude = loc.lat
    ∧ (applyEnrichment loc c).longitude = loc.lon
    ∧ (applyEnrichment loc c).isp = loc.isp
    ∧ (applyEnrichment loc c).org = loc.org := by
  have hget : mapGet (addClick s c).clicks c.linkId
      = some (getClicksForLink s c.linkId ++ [c]) := by
    simp [addClick, getClicksForLink, mapGetD, mapGet_set_self]
  have hpatch : patchFirst c.id loc (getClicksForLink s c.linkId ++ [c])
      = getClicksForLink s c.linkId ++ [applyEnrichment loc c] := by
    rw [patchFirst_append_of_fresh hfresh]
    simp [patchFirst]
  refine ⟨?_, ?_, rfl, rfl, rfl, rfl, rfl, rfl, rfl, rfl, rfl, rfl, rfl, rfl, rfl, rfl⟩
  · unfold patchEnrichment
    rw [hget]
    simp only [getClicksForLink, mapGetD, mapGet_set_self]
    simp only [getClicksForLink, mapGetD] at hpatch
    simp [hpatch]
  · intro k hk
    unfold patchEnrichment
    rw [hget]
    simp only [getClicksForLink, mapGetD]
    rw [mapGet_set_ne _ _ hk]
    simp [addClick, mapGet_set_ne _ _ hk]

/-- Witness for `append_patch_visible`: append a second click to the
one-click ledger of `witStores2`, then patch it with `witLoc`. -/
theorem append_patch_visible_witness :
    getClicksForLink (patchEnrichment (addClick witStores2 witClick2)
        witClick2.linkId witClick2.id witLoc) witClick2.linkId
      = getClicksForLink witStores2 witClick2.linkId ++ [applyEnrichment witLoc witClick2]
    ∧ (∀ k, k ≠ witClick2.linkId →
        getClicksForLink (patchEnrichment (addClick witStores2 witClick2)
          witClick2.linkId witClick2.id witLoc) k
          = getClicksForLink witStores2 k)
    ∧ (applyEnrichment witLoc witClick2).id = witClick2.id
    ∧ (applyEnrichment witLoc witClick2).linkId = witClick2.linkId
    ∧ (applyEnrichment witLoc witClick2).timestamp = witClick2.timestamp
    ∧ (applyEnrichment witLoc witClick2).ip = witClick2.ip
    ∧ (applyEnrichment witLoc witClick2).userAgent = witClick2.userAgent
    ∧ (applyEnrichment witLoc witClick2).referer = witClick2.referer
    ∧ (applyEnrichment witLoc witClick2).country = witLoc.country
    ∧ (applyEnrichment witLoc witClick2).countryCode = witLoc.countryCode
    ∧ (applyEnrichment witLoc witClick2).region = witLoc.region
    ∧ (applyEnrichment witLoc witClick2).city = witLoc.city
    ∧ (applyEnrichment witLoc witClick2).latitude = witLoc.lat
    ∧ (applyEnrichment witLoc witClick2).longitude = witLoc.lon
    ∧ (applyEnrichment witLoc witClick2).isp = witLoc.isp
    ∧ (applyEnrichment witLoc witClick2).org = witLoc.org :=
  append_patch_visible witStores2 witClick2 witLoc (by decide)

/-! ## Claim C6 -/

/-- Claim C6: when some registered link already carries the supplied
(non-empty) custom code, `createLink` fails with the duplicate-code error and
leaves both the link registry and the click ledgers unchanged — the
`duplicateCode` result carries the unmodified input stores, as the `throw`
happens before any store mutation. -/
theorem createLink_duplicate_rejected (s : Stores) (url : String)
    (title description : Option String) (c id : String) (now : Int)
    (draws : List (Nat → Fin 62)) (hc : c ≠ "") (h : mapHas s.links c = true) :
    createLink s url title description (some c) id now draws
      = CreateResult.duplicateCode s := by
  simp [createLink, strFalsy, hc, h]

/-- Witness for `createLink_duplicate_rejected`: re-using the registered code
`"aaaaaa"` of `witStores1` is rejected and the stores are returned
unchanged. -/
theorem createLink_duplicate_rejected_witness :
    createLink witStores1 "https://other.example" none none (some "aaaaaa")
        "L2" 5 [] = CreateResult.duplicateCode witStores1 :=
  createLink_duplicate_rejected witStores1 "https://other.example" none none
    "aaaaaa" "L2" 5 [] (by decide) (by decide)

/-! ## Claim C10 -/

/-- Claim C10: for a registered link identity, `toggleLinkStatus` returns
`true` and flips exactly the first matching link's `isActive` (all its other
fields, all other links and all click histories are unchanged, as the
decomposition conjunct shows); toggling twice returns `true` both times and
restores the stores exactly; for an absent identity it returns `false` and
changes nothing. -/
theorem toggleLinkStatus_props (s : Stores) (id : String)
    (h : hasLinkId s.links id = true) :
    (toggleLinkStatus s id).1 = true
    ∧ toggleLinkStatus (toggleLinkStatus s id).2 id = (true, s)
    ∧ (toggleLinkStatus s id).2.clicks = s.clicks
    ∧ (∃ pre sc l post,
        s.links = pre ++ (sc, l) :: post ∧ l.id = id ∧ (∀ q ∈ pre, q.2.id ≠ id) ∧
        (toggleLinkStatus s id).2.links =
          pre ++ (sc, { l with isActive := !l.isActive }) :: post)
    ∧ (∀ idB, hasLinkId s.links idB = false → toggleLinkStatus s idB = (false, s)) := by
  obtain ⟨r, hr⟩ := Option.isSome_iff_exists.mp (toggleFirst_isSome h)
  have h2 : toggleLinkStatus s id = (true, { s with links := r }) := by
    simp [toggleLinkStatus, hr]
  refine ⟨by simp [h2], ?_, by simp [h2], ?_, ?_⟩
  · rw [h2]
    have hinv := toggleFirst_involutive hr
    simp [toggleLinkStatus, hinv]
  · obtain ⟨pre, sc, l, post, he, hid, hpre, hdec⟩ := toggleFirst_decomp hr
    exact ⟨pre, sc, l, post, he, hid, hpre, by simp [h2, hdec]⟩
  · intro idB hB
    simp [toggleLinkStatus, toggleFirst_eq_none hB]

/-- Witness for `toggleLinkStatus_props`, at the one-link store. -/
theorem toggleLinkStatus_props_witness :
    (toggleLinkStatus witStores1 "L1").1 = true
    ∧ toggleLinkStatus (toggleLinkStatus witStores1 "L1").2 "L1" = (true, witStores1)
    ∧ (toggleLinkStatus witStores1 "L1").2.clicks = witStores1.clicks
    ∧ (∃ pre sc l post,
        witStores1.links = pre ++ (sc, l) :: post ∧ l.id = "L1" ∧
        (∀ q ∈ pre, q.2.id ≠ "L1") ∧
        (toggleLinkStatus witStores1 "L1").2.links =
          pre ++ (sc, { l with isActive := !l.isActive }) :: post)
    ∧ (∀ idB, hasLinkId witStores1.links idB = false →
        toggleLinkStatus witStores1 idB = (false, witStores1)) :=
  toggleLinkStatus_props witStores1 "L1" (by decide)

/-! ## Lemmas about tallying (`bump`, `keysInOrder`, `specTally`) -/

theorem keysInOrder_append_singleton (ks : List String) (k : String) :
    keysInOrder (ks ++ [k])
      = if k ∈ keysInOrder ks then keysInOrder ks else keysInOrder ks ++ [k] := by
  unfold keysInOrder
  rw [List.foldl_append]
  rfl

theorem mem_foldl_dedup (ks : List String) (a : String) :
    ∀ acc : List String,
      (a ∈ ks.foldl (fun acc k => if k ∈ acc then acc else acc ++ [k]) acc
        ↔ a ∈ acc ∨ a ∈ ks) := by
  induction ks with
  | nil => intro acc; simp
  | cons k rest ih =>
    intro acc
    rw [List.foldl_cons, ih]
    by_cases hk : k ∈ acc
    · rw [if_pos hk]
      constructor
      · rintro (h | h)
        · exact Or.inl h
        · exact Or.inr (List.mem_cons_of_mem k h)
      · rintro (h | h)
        · exact Or.inl h
        · rcases List.mem_cons.mp h with rfl | h
          · exact Or.inl hk
          · exact Or.inr h
    · rw [if_neg hk]
      simp only [List.mem_append, List.mem_singleton, List.mem_cons]
      tauto

theorem mem_keysInOrder (ks : List String) (a : String) :
    a ∈ keysInOrder ks ↔ a ∈ ks := by
  unfold keysInOrder
  rw [mem_foldl_dedup]
  simp

theorem nodup_foldl_dedup (ks : List String) :
    ∀ acc : List String, acc.Nodup →
      (ks.foldl (fun acc k => if k ∈ acc then acc else acc ++ [k]) acc).Nodup := by
  induction ks with
  | nil => intro acc h; exact h
  | cons k rest ih =>
    intro acc h
    rw [List.foldl_cons]
    by_cases hk : k ∈ acc
    · rw [if_pos hk]
      exact ih acc h
    · rw [if_neg hk]
      refine ih _ ?_
      rw [← List.concat_eq_append]
      exact List.Nodup.concat hk h

theorem nodup_keysInOrder (ks : List String) : (keysInOrder ks).Nodup :=
  nodup_foldl_dedup ks [] List.nodup_nil

theorem mapGet_map_of_mem {f : String → Nat} {K : List String} {k : String}
    (h : k ∈ K) : mapGet (K.map (fun x => (x, f x))) k = some (f k) := by
  induction K with
  | nil => simp at h
  | cons x rest ih =>
    by_cases hx : x = k
    · subst hx
      simp [mapGet]
    · rcases List.mem_cons.mp h with rfl | h2
      · exact absurd rfl hx
      · simp only [List.map_cons, mapGet, hx, if_false]
        exact ih h2

theorem mapGet_map_of_not_mem {f : String → Nat} {K : List String} {k : String}
    (h : k ∉ K) : mapGet (K.map (fun x => (x, f x))) k = none := by
  induction K with
  | nil => rfl
  | cons x rest ih =>
    have hx : ¬(x = k) := fun hh => h (hh ▸ List.mem_cons_self x rest)
    simp only [List.map_cons, mapGet, hx, if_false]
    exact ih (fun hc => h (List.mem_cons_of_mem x hc))

theorem mapSet_map_of_mem {f : String → Nat} {K : List String} {k : String}
    (hnd : K.Nodup) (h : k ∈ K) (v : Nat) :
    mapSet (K.map (fun x => (x, f x))) k v
      = K.map (fun x => (x, if x = k then v else f x)) := by
  induction K with
  | nil => simp at h
  | cons x rest ih =>
    rcases List.nodup_cons.mp hnd with ⟨hx, hrest⟩
    by_cases hxk : x = k
    · subst hxk
      simp only [List.map_cons, mapSet, if_pos rfl, if_true]
      have : ∀ y ∈ rest, (y, f y) = (y, if y = x then v else f y) := by
        intro y hy
        have : ¬(y = x) := fun hh => hx (hh ▸ hy)
        simp [this]
      rw [List.map_congr_left (fun y hy => (this y hy).symm)]
    · have h2 : k ∈ rest := by
        rcases List.mem_cons.mp h with rfl | h2
        · exact absurd rfl hxk
        · exact h2
      simp only [List.map_cons, mapSet, hxk, if_false]
      rw [ih hrest h2]

theorem bump_specTally (ks : List String) (k : String) :
    bump (specTally ks) k = specTally (ks ++ [k]) := by
  unfold specTally
  rw [keysInOrder_append_singleton]
  by_cases hk : k ∈ keysInOrder ks
  · rw [if_pos hk]
    have hcount : mapGetD (List.map (fun x => (x, ks.count x)) (keysInOrder ks)) k 0
        = ks.count k := by
      unfold mapGetD
      rw [mapGet_map_of_mem hk]
      rfl
    unfold bump
    rw [hcount, mapSet_map_of_mem (nodup_keysInOrder ks) hk]
    apply List.map_congr_left
    intro x hx
    by_cases hxk : x = k
    · subst hxk
      simp [List.count_append]
    · simp [hxk, List.count_append]
  · rw [if_neg hk]
    have hget : mapGetD (List.map (fun x => (x, ks.count x)) (keysInOrder ks)) k 0
        = 0 := by
      unfold mapGetD
      rw [mapGet_map_of_not_mem hk]
      rfl
    have hhas : mapHas (List.map (fun x => (x, ks.count x)) (keysInOrder ks)) k
        = false := by
      unfold mapHas
      rw [mapGet_map_of_not_mem hk]
      rfl
    unfold bump
    rw [hget, mapSet_of_not_has _ _ hhas, List.map_append]
    have hnotks : k ∉ ks := fun hc => hk ((mem_keysInOrder ks k).mpr hc)
    congr 1
    · apply List.map_congr_left
      intro x hx
      have hxk : ¬(x = k) := fun hh => hk (hh ▸ hx)
      simp [List.count_append, hxk]
    · simp [List.count_append, List.count_eq_zero.mpr hnotks]

theorem tally_eq_specTally (keys : List String) :
    keys.foldl bump [] = specTally keys := by
  induction keys using List.reverseRecOn with
  | nil => rfl
  | append_singleton ks k ih =>
    rw [List.foldl_append, List.foldl_cons, List.foldl_nil, ih, bump_specTally]

theorem countLe_trans (a b c : String × Nat) :
    countLe a b → countLe b c → countLe a c := by
  simp only [countLe, decide_eq_true_iff]
  omega

theorem countLe_total (a b : String × Nat) : countLe a b || countLe b a := by
  simp only [countLe, Bool.or_eq_true, decide_eq_true_iff]
  omega

theorem specTally_map_fst (keys : List String) :
    (specTally keys).map Prod.fst = keysInOrder keys := by
  unfold specTally
  rw [List.map_map]
  have h : (Prod.fst ∘ fun x => (x, keys.count x)) = id := rfl
  rw [h, List.map_id]

/-! ## Claim C8 -/

/-- Claim C8 as stated is false on the code at a click whose `country` is the
empty string: `click.country || 'Unknown'` treats the empty string as absent,
so the click is grouped under `"Unknown"`, while the claim's reading (the
literal label only for clicks with *no* country) would group it under the
distinct country `""`. -/
theorem groupByCountry_empty_country_cex :
    groupClicksByCountry [emptyCountryClick] = [("Unknown", 1)]
    ∧ claimedGroupByCountry [emptyCountryClick] = [("", 1)]
    ∧ groupClicksByCountry [emptyCountryClick]
        ≠ claimedGroupByCountry [emptyCountryClick] := by
  have h1 : groupClicksByCountry [emptyCountryClick]
      = List.mergeSort [("Unknown", 1)] countLe := rfl
  have h2 : claimedGroupByCountry [emptyCountryClick]
      = List.mergeSort [("", 1)] countLe := rfl
  rw [h1, h2, List.mergeSort_singleton, List.mergeSort_singleton]
  exact ⟨rfl, rfl, by decide⟩

/-- Claim C8, amended (`"Unknown"` also covers an *empty* country string):
`groupClicksByCountry` equals the stable count-descending sort of the
insertion-ordered tally of country labels — one pair per distinct label in
first-encountered order before sorting; it returns `[]` on no clicks; every
returned pair carries the exact number of clicks with that label; the labels
are pairwise distinct; the result is sorted by count descending; and any
insertion-ordered pair of groups whose counts allow it (in particular ties)
keeps its order in the output (stability). -/
theorem groupByCountry_spec (clicks : List Click) :
    groupClicksByCountry clicks
      = (specTally (clicks.map countryLabel)).mergeSort countLe
    ∧ groupClicksByCountry [] = []
    ∧ (groupClicksByCountry clicks).Pairwise (fun a b => b.2 ≤ a.2)
    ∧ (∀ pr ∈ groupClicksByCountry clicks,
        pr.2 = (clicks.map countryLabel).count pr.1
          ∧ pr.1 ∈ clicks.map countryLabel)
    ∧ ((groupClicksByCountry clicks).map Prod.fst).Nodup
    ∧ (∀ pa pb : String × Nat,
        [pa, pb].Sublist (specTally (clicks.map countryLabel)) → pb.2 ≤ pa.2 →
        [pa, pb].Sublist (groupClicksByCountry clicks)) := by
  have heq : groupClicksByCountry clicks
      = (specTally (clicks.map countryLabel)).mergeSort countLe := by
    unfold groupClicksByCountry
    rw [← List.foldl_map countryLabel bump clicks [], tally_eq_specTally]
  refine ⟨heq, by simp [groupClicksByCountry, keysInOrder], ?_, ?_, ?_, ?_⟩
  · rw [heq]
    exact (List.sorted_mergeSort countLe_trans countLe_total _).imp
      (fun h => by simpa [countLe] using h)
  · intro pr hpr
    rw [heq, List.mem_mergeSort] at hpr
    unfold specTally at hpr
    rcases List.mem_map.mp hpr with ⟨x, hx, rfl⟩
    exact ⟨rfl, (mem_keysInOrder _ x).mp hx⟩
  · have hperm : List.Perm ((groupClicksByCountry clicks).map Prod.fst)
        ((specTally (clicks.map countryLabel)).map Prod.fst) := by
      rw [heq]
      exact (List.mergeSort_perm _ _).map Prod.fst
    rw [hperm.nodup_iff, specTally_map_fst]
    exact nodup_keysInOrder _
  · intro pa pb hsub hle
    rw [heq]
    exact List.pair_sublist_mergeSort countLe_trans countLe_total
      (by simpa [countLe] using hle) hsub

/-! ## Claim C9 -/

/-- Claim C9 as stated is false on the code at a click whose `referer` is the
empty string: `click.referer || 'Direct'` treats the empty string as absent
and labels the click `"Direct"`, while the claim's reading (`"Direct"` only
for an *absent* referer, a present referer that fails to parse keeps its
literal text) would label it `""`. -/
theorem topReferers_empty_referer_cex :
    generateTopReferers noHost [emptyRefererClick] = [("Direct", 1)]
    ∧ claimedTopReferers noHost [emptyRefererClick] = [("", 1)]
    ∧ generateTopReferers noHost [emptyRefererClick]
        ≠ claimedTopReferers noHost [emptyRefererClick] := by
  have h1 : generateTopReferers noHost [emptyRefererClick]
      = (List.mergeSort [("Direct", 1)] countLe).take 10 := rfl
  have h2 : claimedTopReferers noHost [emptyRefererClick]
      = (List.mergeSort [("", 1)] countLe).take 10 := rfl
  rw [h1, h2, List.mergeSort_singleton, List.mergeSort_singleton]
  exact ⟨rfl, rfl, by decide⟩

/-- Claim C9, amended (`"Direct"` also covers an *empty* referer string, and
a referer equal to the literal string `"Direct"` is labelled `"Direct"`
without being parsed — `new URL("Direct")` would fail anyway, so its claimed
label coincides): for every URL-host parser, `generateTopReferers` equals the
stable count-descending sort of the insertion-ordered tally of referer labels
truncated to 10 entries; it has at most 10 entries, is sorted by count
descending, and each returned pair carries the exact number of clicks with
that label. -/
theorem topReferers_spec (p : String → Option String) (clicks : List Click) :
    generateTopReferers p clicks
      = ((specTally (clicks.map (refererLabel p))).mergeSort countLe).take 10
    ∧ (generateTopReferers p clicks).length ≤ 10
    ∧ (generateTopReferers p clicks).Pairwise (fun a b => b.2 ≤ a.2)
    ∧ (∀ pr ∈ generateTopReferers p clicks,
        pr.2 = (clicks.map (refererLabel p)).count pr.1
          ∧ pr.1 ∈ clicks.map (refererLabel p)) := by
  have heq : generateTopReferers p clicks
      = ((specTally (clicks.map (refererLabel p))).mergeSort countLe).take 10 := by
    unfold generateTopReferers
    rw [← List.foldl_map (refererLabel p) bump clicks [], tally_eq_specTally]
  have hsorted : ((specTally (clicks.map (refererLabel p))).mergeSort countLe).Pairwise
      (fun a b => countLe a b) :=
    List.sorted_mergeSort countLe_trans countLe_total _
  refine ⟨heq, ?_, ?_, ?_⟩
  · rw [heq]
    exact List.length_take_le 10 _
  · rw [heq]
    exact ((hsorted.sublist (List.take_sublist 10 _)).imp
      (fun h => by simpa [countLe] using h))
  · intro pr hpr
    rw [heq] at hpr
    have hpr2 := List.mem_mergeSort.mp ((List.take_sublist 10 _).mem hpr)
    unfold specTally at hpr2
    rcases List.mem_map.mp hpr2 with ⟨x, hx, rfl⟩
    exact ⟨rfl, (mem_keysInOrder _ x).mp hx⟩

/-! ## The click-count/ledger invariant (Claim C2) -/

theorem hasLinkId_eq_false_iff (links : List (String × Link)) (id : String) :
    hasLinkId links id = false ↔ id ∉ links.map (fun p => p.2.id) := by
  simp only [hasLinkId, List.any_eq_false, List.mem_map, decide_eq_true_eq]
  constructor
  · rintro h ⟨p, hp, rfl⟩
    exact h p hp rfl
  · intro h p hp he
    exact h ⟨p, hp, he⟩

theorem patchFirst_length (cid : String) (loc : LocationData) (l : List Click) :
    (patchFirst cid loc l).length = l.length := by
  induction l with
  | nil => rfl
  | cons c rest ih =>
    by_cases hc : c.id = cid
    · simp [patchFirst, hc]
    · simp [patchFirst, hc, ih]

theorem updateLinkClickCount_mem {links : List (String × Link)} {linkId : String}
    (hnd : IdsNodup links) :
    ∀ q ∈ updateLinkClickCount links linkId,
      (q ∈ links ∧ q.2.id ≠ linkId)
      ∨ ∃ p ∈ links, p.2.id = linkId ∧ q.1 = p.1
          ∧ q.2 = { p.2 with clickCount := p.2.clickCount + 1 } := by
  induction links with
  | nil => intro q hq; simp [updateLinkClickCount] at hq
  | cons e rest ih =>
    cases e with
    | mk sc l =>
      have hnd2 : IdsNodup rest := (List.nodup_cons.mp hnd).2
      have hhead : l.id ∉ rest.map (fun p => p.2.id) := (List.nodup_cons.mp hnd).1
      intro q hq
      by_cases hl : l.id = linkId
      · simp only [updateLinkClickCount] at hq
        rw [if_pos hl] at hq
        rcases List.mem_cons.mp hq with rfl | hq2
        · exact Or.inr ⟨(sc, l), List.mem_cons_self _ _, hl, rfl, rfl⟩
        · left
          refine ⟨List.mem_cons_of_mem _ hq2, ?_⟩
          intro hid
          exact hhead (by
            rw [← hl] at hid
            exact List.mem_map.mpr ⟨q, hq2, hid⟩)
      · simp only [updateLinkClickCount, hl, if_false] at hq
        rcases List.mem_cons.mp hq with rfl | hq2
        · exact Or.inl ⟨List.mem_cons_self _ _, hl⟩
        · rcases ih hnd2 q hq2 with ⟨hm, hne⟩ | ⟨p, hp, h1, h2, h3⟩
          · exact Or.inl ⟨List.mem_cons_of_mem _ hm, hne⟩
          · exact Or.inr ⟨p, List.mem_cons_of_mem _ hp, h1, h2, h3⟩

theorem createLink_ok_inv {s : Stores} {url : String}
    {title description customCode : Option String} {id : String} {now : Int}
    {draws : List (Nat → Fin 62)} {link : Link} {sB : Stores}
    (h : createLink s url title description customCode id now draws
      = CreateResult.ok link sB) :
    link.id = id ∧ link.clickCount = 0
    ∧ mapHas s.links link.shortCode = false
    ∧ sB.links = s.links ++ [(link.shortCode, link)]
    ∧ sB.clicks = mapSet s.clicks id [] := by
  by_cases hf : strFalsy customCode
  · simp only [createLink, hf, if_true] at h
    rcases hg : generateUniqueShortCode s.links draws with _ | code
    · rw [hg] at h
      cases h
    · rw [hg] at h
      simp only [Bool.not_true, Bool.false_and, Bool.false_eq_true, if_false,
        CreateResult.ok.injEq] at h
      obtain ⟨h1, h2⟩ := h
      have hfree : mapHas s.links code = false :=
        (generateUniqueShortCode_some hg).1
      subst h1
      subst h2
      exact ⟨rfl, rfl, hfree, by rw [mapSet_of_not_has _ _ hfree], rfl⟩
  · have hff : strFalsy customCode = false := by
      rwa [Bool.not_eq_true] at hf
    simp only [createLink, hff, Bool.false_eq_true, if_false, Bool.not_false,
      Bool.true_and] at h
    by_cases hh : mapHas s.links (customCode.getD "")
    · rw [if_pos hh] at h
      cases h
    · have hh2 : mapHas s.links (customCode.getD "") = false := by
        rwa [Bool.not_eq_true] at hh
      rw [if_neg hh, CreateResult.ok.injEq] at h
      obtain ⟨h1, h2⟩ := h
      subst h1
      subst h2
      exact ⟨rfl, rfl, hh2, by rw [mapSet_of_not_has _ _ hh2], rfl⟩

theorem reachable_inv {s : Stores} (h : Reachable s) :
    IdsNodup s.links ∧ CountInv s := by
  induction h with
  | empty =>
    refine ⟨List.nodup_nil, ?_⟩
    intro p hp
    simp [emptyStores] at hp
  | create hprev hfresh hok ih =>
    obtain ⟨hnd, hcnt⟩ := ih
    obtain ⟨hid, hcc, hfree, hlinks, hclicks⟩ := createLink_ok_inv hok
    rename_i sR url title description customCode idN now draws link sB
    constructor
    · unfold IdsNodup
      rw [hlinks, List.map_append]
      simp only [List.map_cons, List.map_nil]
      rw [← List.concat_eq_append]
      refine List.Nodup.concat ?_ hnd
      rw [hid]
      exact (hasLinkId_eq_false_iff _ _).mp hfresh
    · intro p hp
      rw [hlinks] at hp
      rcases List.mem_append.mp hp with hp | hp
      · obtain ⟨l, hg, hlen⟩ := hcnt p hp
        have hne : p.2.id ≠ idN := by
          intro he
          exact (hasLinkId_eq_false_iff _ _).mp hfresh (List.mem_map.mpr ⟨p, hp, he⟩)
        refine ⟨l, ?_, hlen⟩
        rw [hclicks, mapGet_set_ne _ _ hne, hg]
      · rw [List.mem_singleton] at hp
        subst hp
        refine ⟨[], ?_, by simp [hcc]⟩
        simp only [hid]
        rw [hclicks]
        exact mapGet_set_self _ _ _
  | click hprev hlive ih =>
    obtain ⟨hnd, hcnt⟩ := ih
    rename_i sR c
    constructor
    · unfold IdsNodup
      rw [show (addClick sR c).links = updateLinkClickCount sR.links c.linkId from rfl]
      rw [updateLinkClickCount_map_id]
      exact hnd
    · intro q hq
      have hq2 := updateLinkClickCount_mem hnd q hq
      rcases hq2 with ⟨hm, hne⟩ | ⟨p, hp, hpid, hq1, hq2⟩
      · obtain ⟨l, hg, hlen⟩ := hcnt q hm
        refine ⟨l, ?_, hlen⟩
        rw [show (addClick sR c).clicks
            = mapSet sR.clicks c.linkId (mapGetD sR.clicks c.linkId [] ++ [c]) from rfl]
        rw [mapGet_set_ne _ _ hne, hg]
      · obtain ⟨l, hg, hlen⟩ := hcnt p hp
        refine ⟨mapGetD sR.clicks c.linkId [] ++ [c], ?_, ?_⟩
        · rw [show (addClick sR c).clicks
              = mapSet sR.clicks c.linkId (mapGetD sR.clicks c.linkId [] ++ [c]) from rfl]
          rw [hq2]
          simp only [hpid]
          exact mapGet_set_self _ _ _
        · rw [hq2]
          simp only [List.length_append, List.length_singleton]
          rw [hpid] at hg
          unfold mapGetD
          rw [hg]
          simpa using hlen
  | toggle hprev ih =>
    obtain ⟨hnd, hcnt⟩ := ih
    rename_i sR idN
    rcases ht : toggleFirst sR.links idN with _ | r
    · simp only [toggleLinkStatus, ht]
      exact ⟨hnd, hcnt⟩
    · have hs2 : (toggleLinkStatus sR idN).2 = { sR with links := r } := by
        simp [toggleLinkStatus, ht]
      obtain ⟨pre, sc, l, post, he, hidl, hpre, hr⟩ := toggleFirst_decomp ht
      rw [hs2]
      constructor
      · unfold IdsNodup at hnd ⊢
        rw [hr]
        rw [he] at hnd
        simpa using hnd
      · intro p hp
        simp only at hp
        rw [hr] at hp
        rcases List.mem_append.mp hp with hp2 | hp2
        · exact hcnt p (by rw [he]; exact List.mem_append.mpr (Or.inl hp2))
        · rcases List.mem_cons.mp hp2 with rfl | hp3
          · obtain ⟨lg, hg, hlen⟩ := hcnt (sc, l)
              (by rw [he]; exact List.mem_append.mpr (Or.inr (List.mem_cons_self _ _)))
            exact ⟨lg, hg, hlen⟩
          · exact hcnt p
              (by rw [he]; exact List.mem_append.mpr (Or.inr (List.mem_cons_of_mem _ hp3)))
  | patch hprev ih =>
    obtain ⟨hnd, hcnt⟩ := ih
    rename_i sR linkId clickId loc
    rcases hg : mapGet sR.clicks linkId with _ | ledger
    · rw [patchEnrichment_of_no_ledger hg]
      exact ⟨hnd, hcnt⟩
    · have hs2 : patchEnrichment sR linkId clickId loc
          = { sR with clicks := mapSet sR.clicks linkId (patchFirst clickId loc ledger) } := by
        unfold patchEnrichment
        rw [hg]
      rw [hs2]
      refine ⟨hnd, ?_⟩
      intro p hp
      obtain ⟨lg, hg2, hlen⟩ := hcnt p hp
      by_cases hne : p.2.id = linkId
      · refine ⟨patchFirst clickId loc ledger, ?_, ?_⟩
        · simp only [hne]
          exact mapGet_set_self _ _ _
        · rw [patchFirst_length]
          rw [hne] at hg2
          rw [hg] at hg2
          obtain rfl := Option.some_inj.mp hg2
          exact hlen
      · refine ⟨lg, ?_, hlen⟩
        simp only []
        rw [mapGet_set_ne _ _ hne, hg2]
  | del hprev ih =>
    obtain ⟨hnd, hcnt⟩ := ih
    rename_i sR idN
    rcases hf : sR.links.find? (fun p => p.2.id = idN) with _ | e
    · simp only [deleteLink, hf]
      exact ⟨hnd, hcnt⟩
    · have hs2 : (deleteLink sR idN).2
          = { links := eraseKey sR.links e.1, clicks := eraseKey sR.clicks idN } := by
        simp [deleteLink, hf]
      have hmem : e ∈ sR.links := List.mem_of_find?_eq_some hf
      have hid : e.2.id = idN := by
        have := List.find?_some hf
        simpa using this
      rw [hs2]
      constructor
      · unfold IdsNodup at hnd ⊢
        refine List.Nodup.sublist ?_ hnd
        exact List.Sublist.map _ (List.filter_sublist _)
      · intro q hq
        simp only at hq
        have hq2 : q ∈ sR.links := List.mem_of_mem_filter hq
        have hqkey : ¬(q.1 = e.1) := by
          have := List.of_mem_filter hq
          simpa using this
        have hqid : q.2.id ≠ idN := by
          intro he
          have : q = e := List.inj_on_of_nodup_map hnd hq2 hmem (by rw [he, hid])
          exact hqkey (by rw [this])
        obtain ⟨lg, hg, hlen⟩ := hcnt q hq2
        refine ⟨lg, ?_, hlen⟩
        rw [mapGet_erase_ne _ hqid, hg]

/-! ## Claim C2 -/

/-- Claim C2: in every state reachable from the empty stores by `createLink`
(with a fresh identity), `addClick` targeting a live link, `toggleLinkStatus`,
enrichment patches and `deleteLink`, every registered link's `clickCount`
equals the number of clicks stored in that link's ledger. -/
theorem clickCount_eq_ledger_length {s : Stores} (h : Reachable s) :
    ∀ p ∈ s.links, (getClicksForLink s p.2.id).length = p.2.clickCount := by
  intro p hp
  obtain ⟨l, hg, hlen⟩ := (reachable_inv h).2 p hp
  simp [getClicksForLink, mapGetD, hg, hlen]

/-- Witness for `clickCount_eq_ledger_length`: in the reachable state obtained
by registering one link and appending one click to it, the link's count is 1
and its ledger holds exactly one click. -/
theorem clickCount_eq_ledger_length_witness :
    (getClicksForLink witStores2 "L1").length = 1 :=
  clickCount_eq_ledger_length
    (@Reachable.click witStores1 witClick
      (@Reachable.create emptyStores "https://example.com" none none none "L1" 0
        [drawA] witLink witStores1 Reachable.empty (by decide) (by decide))
      (by decide))
    ("aaaaaa", { witLink with clickCount := 1 }) (by decide)
